import Mathlib

/-
Verification of find_missing_contracts.py.

The program enumerates the files ending in '.sol' under two directory trees
(list_sol_files, via os.walk), subtracts the two resulting sets of
root-relative paths (main), writes each member of the difference to
missing_contracts.txt followed by a newline, and prints the size of the
difference.

Embedding choices:
- A directory listing is the inductive Entries: a sequence of entries, each a
  regular file (with its name) or a subdirectory (with its name and its own
  listing).  The sequence order is the order os.scandir presents entries.
- os.walk(top) is modelled top-down exactly as CPython implements it for this
  program: yield the files of the current directory (in listing order), then
  recurse into each subdirectory in listing order.  os.path.relpath of
  os.path.join(root, file) against the walk root is the accumulated relative
  path prefix followed by the filename, with the POSIX separator.
- A root argument is an Option Entries: none models a directory path that does
  not exist or is not readable.  os.walk is a generator whose first scandir
  failure is passed to onerror (default None, so it is ignored); a missing or
  unreadable root therefore yields an empty walk and raises nothing.
- Python str.endswith is an exact, case-sensitive suffix test on the character
  sequence.
- A Python set of strings is a Finset String; set subtraction is Finset sdiff.
- The output file is a character sequence (List Char); opening with mode 'w'
  creates the file or truncates whatever was there.
-/

/-- A directory listing: regular files and subdirectories, in the order the
operating system enumerates them. -/
inductive Entries : Type where
  | nil : Entries
  | file : String → Entries → Entries
  | dir : String → Entries → Entries → Entries

/-- Python str.endswith: exact case-sensitive suffix match on the character
sequence ( file.endswith in line 8 of find_missing_contracts.py). -/
def endswith (s sfx : String) : Bool :=
  sfx.data.isSuffixOf s.data

/-- The inner loop of list_sol_files for one visited directory: for each
regular file in the listing (in order), if its name ends with the suffix,
append os.path.relpath(os.path.join(root, file), directory), which is the
accumulated prefix pfx followed by the filename. -/
def filesPass (sfx pfx : String) : Entries → List String
  | Entries.nil => []
  | Entries.file n rest =>
      if endswith n sfx then (pfx ++ n) :: filesPass sfx pfx rest
      else filesPass sfx pfx rest
  | Entries.dir _ _ rest => filesPass sfx pfx rest

/-- The recursion of os.walk into subdirectories (top-down): each subdirectory
is visited in listing order, emitting its own files first and then its own
subdirectories, with the relative prefix extended by the directory name and a
separator. -/
def walkSubs (sfx pfx : String) : Entries → List String
  | Entries.nil => []
  | Entries.file _ rest => walkSubs sfx pfx rest
  | Entries.dir n sub rest =>
      (filesPass sfx (pfx ++ n ++ "/") sub ++ walkSubs sfx (pfx ++ n ++ "/") sub)
        ++ walkSubs sfx pfx rest

/-- The full walk of one directory listing: os.walk yields the current
directory first (its files), then every subdirectory recursively. -/
def walk (sfx pfx : String) (es : Entries) : List String :=
  filesPass sfx pfx es ++ walkSubs sfx pfx es

/-- list_sol_files with the suffix literal abstracted (the spec's
enumerate(root, suffix)).  A missing or unreadable root (none) produces an
empty walk: os.walk passes the scandir error to onerror, which defaults to
None, so the error is swallowed and no triple is yielded. -/
def list_files (sfx : String) : Option Entries → List String
  | none => []
  | some es => walk sfx ("") es

/-- list_sol_files as written in the source: the suffix is the literal '.sol'
(line 8 of find_missing_contracts.py). -/
def list_sol_files (d : Option Entries) : List String :=
  list_files (".sol") d

/-- The set a call set(list_sol_files(dir)) builds in main (lines 18-19). -/
def file_set (sfx : String) (d : Option Entries) : Finset String :=
  (list_files sfx d).toFinset

/-- The set difference of main, with the suffix abstracted:
sanctuary_contracts - sourcify_contracts (line 22). -/
def missing_set (sfx : String) (L R : Option Entries) : Finset String :=
  file_set sfx L \ file_set sfx R

/-- missing_contracts exactly as main computes it (lines 18-22):
set(list_sol_files(sanctuary_dir)) - set(list_sol_files(sourcify_dir)). -/
def missing_contracts (L R : Option Entries) : Finset String :=
  (list_sol_files L).toFinset \ (list_sol_files R).toFinset

/-- The call list_sol_files(directory) as an exception-aware step of main:
nothing in list_sol_files can raise, because os.walk with the default
onerror=None swallows the scandir failure of a missing or unreadable root, so
the result is always ok. -/
def list_sol_files_exc (d : Option Entries) : Except String (List String) :=
  Except.ok (list_sol_files d)

/-- The pipeline of main up to the set difference (lines 18-22), propagating
any exception the way Python would: a raised error in either enumeration would
abort the rest. -/
def diff_run (L R : Option Entries) : Except String (Finset String) :=
  match list_sol_files_exc L with
  | Except.error e => Except.error e
  | Except.ok ls =>
    match list_sol_files_exc R with
    | Except.error e => Except.error e
    | Except.ok rs => Except.ok (ls.toFinset \ rs.toFinset)

/-- Process exit status of the run: 0 when the pipeline completes, 1 when an
unhandled exception aborts it. -/
def exit_code (L R : Option Entries) : Nat :=
  match diff_run L R with
  | Except.ok _ => 0
  | Except.error _ => 1

/-- The bytes the write loop of main produces (lines 26-27): for each contract
in the missing set, in the iteration order ms of the set, the contract string
followed by one newline. -/
def report_output (ms : List String) : List Char :=
  (ms.map (fun c => c.data ++ ['\n'])).flatten

/-- Opening a file with mode 'w' (line 25): the file is created if absent and
truncated if present, so the content after the run is exactly what was
written, whatever was there before. -/
def write_file (_prev : Option (List Char)) (content : List Char) :
    Option (List Char) :=
  some content

/-- The whole reporting step: the content of missing_contracts.txt after main
ran, as a function of the prior state of that file and the iteration order of
the missing set. -/
def report_write (prev : Option (List Char)) (ms : List String) :
    Option (List Char) :=
  write_file prev (report_output ms)

/-- The number printed as Total missing contracts (line 30):
len(missing_contracts), the cardinality of the set. -/
def console_count (L R : Option Entries) : Nat :=
  (missing_contracts L R).card

/-- Splitting a character sequence at newline characters; a final newline
yields a trailing empty segment. -/
def splitNl : List Char → List (List Char)
  | [] => [[]]
  | c :: rest =>
    if c = ('\n') then [] :: splitNl rest
    else
      match splitNl rest with
      | [] => [[c]]
      | l :: ls => (c :: l) :: ls

/-- Spec-side predicate: the relative path p identifies a regular file
reachable under the listing, and the filename of that file ends with the
suffix.  Written from the spec's words, to be compared with the walk. -/
inductive ReachMatch (sfx : String) : Entries → String → Prop where
  | file_here {n : String} {rest : Entries} (he : endswith n sfx = true) :
      ReachMatch sfx (Entries.file n rest) n
  | file_there {n p : String} {rest : Entries} (h : ReachMatch sfx rest p) :
      ReachMatch sfx (Entries.file n rest) p
  | dir_down {n p : String} {sub rest : Entries} (h : ReachMatch sfx sub p) :
      ReachMatch sfx (Entries.dir n sub rest) (n ++ "/" ++ p)
  | dir_there {n p : String} {sub rest : Entries} (h : ReachMatch sfx rest p) :
      ReachMatch sfx (Entries.dir n sub rest) p

/-- Spec-side predicate lifted to a possibly missing root: nothing is
reachable under a root that does not exist or cannot be read. -/
def reachable_match (sfx : String) : Option Entries → String → Prop
  | none, _ => False
  | some es, p => ReachMatch sfx es p

/-- Reachability of a '.sol' file, the instance the program uses. -/
def reachable_sol : Option Entries → String → Prop :=
  reachable_match (".sol")

/-- The traversal of list_sol_files with the suffix filter removed: every
regular file os.walk visits at the current level, as a pair of its relative
path and its filename. -/
def filesAll (pfx : String) : Entries → List (String × String)
  | Entries.nil => []
  | Entries.file n rest => (pfx ++ n, n) :: filesAll pfx rest
  | Entries.dir _ _ rest => filesAll pfx rest

/-- The subdirectory recursion of the unfiltered traversal. -/
def walkSubsAll (pfx : String) : Entries → List (String × String)
  | Entries.nil => []
  | Entries.file _ rest => walkSubsAll pfx rest
  | Entries.dir n sub rest =>
      (filesAll (pfx ++ n ++ "/") sub ++ walkSubsAll (pfx ++ n ++ "/") sub)
        ++ walkSubsAll pfx rest

/-- Every regular file the walk visits, with its relative path and filename,
in visiting order. -/
def walkAll (pfx : String) (es : Entries) : List (String × String) :=
  filesAll pfx es ++ walkSubsAll pfx es

/-- Two listings that present the same directory tree, allowing the order in
which the operating system enumerates each directory to differ between two
observations of the same unmodified filesystem state. -/
inductive EquivT : Entries → Entries → Prop where
  | nil : EquivT Entries.nil Entries.nil
  | file {n : String} {r r2 : Entries} (h : EquivT r r2) :
      EquivT (Entries.file n r) (Entries.file n r2)
  | dir {n : String} {s s2 r r2 : Entries} (hs : EquivT s s2) (hr : EquivT r r2) :
      EquivT (Entries.dir n s r) (Entries.dir n s2 r2)
  | swap_ff {a b : String} {r : Entries} :
      EquivT (Entries.file a (Entries.file b r)) (Entries.file b (Entries.file a r))
  | swap_fd {a n : String} {s r : Entries} :
      EquivT (Entries.file a (Entries.dir n s r)) (Entries.dir n s (Entries.file a r))
  | swap_df {a n : String} {s r : Entries} :
      EquivT (Entries.dir n s (Entries.file a r)) (Entries.file a (Entries.dir n s r))
  | swap_dd {n m : String} {s t r : Entries} :
      EquivT (Entries.dir n s (Entries.dir m t r)) (Entries.dir m t (Entries.dir n s r))
  | trans {a b c : Entries} (h1 : EquivT a b) (h2 : EquivT b c) : EquivT a c

/-- Equivalence of two observations of a root: both missing, or both present
with listings of the same tree. -/
def equiv_fs : Option Entries → Option Entries → Prop
  | none, none => True
  | some a, some b => EquivT a b
  | _, _ => False

/-- Associativity of string concatenation, needed to relate the accumulated
walk prefix to the path the spec-side predicate assembles. -/
theorem str_append_assoc (a b c : String) : (a ++ b) ++ c = a ++ (b ++ c) := by
  cases a; cases b; cases c
  apply congrArg String.mk
  exact List.append_assoc _ _ _

/-- Concatenating the empty relative prefix on the left is the identity. -/
theorem str_empty_append (s : String) : ("") ++ s = s := by
  cases s
  rfl

/-- Nothing is reachable in an empty listing. -/
theorem reach_nil_iff (sfx p : String) : ReachMatch sfx Entries.nil p ↔ False :=
  Iff.intro (fun h => nomatch h) (fun h => h.elim)

/-- Inversion of reachability at a file entry. -/
theorem reach_file_iff (sfx n p : String) (rest : Entries) :
    ReachMatch sfx (Entries.file n rest) p ↔
      (p = n ∧ endswith n sfx = true) ∨ ReachMatch sfx rest p := by
  constructor
  · intro h
    cases h with
    | file_here he => exact Or.inl ⟨rfl, he⟩
    | file_there h2 => exact Or.inr h2
  · intro h
    rcases h with ⟨rfl, he⟩ | h2
    · exact ReachMatch.file_here he
    · exact ReachMatch.file_there h2

/-- Inversion of reachability at a directory entry. -/
theorem reach_dir_iff (sfx n p : String) (sub rest : Entries) :
    ReachMatch sfx (Entries.dir n sub rest) p ↔
      (∃ q, ReachMatch sfx sub q ∧ p = n ++ "/" ++ q) ∨
        ReachMatch sfx rest p := by
  constructor
  · intro h
    cases h with
    | dir_down h2 => exact Or.inl ⟨_, h2, rfl⟩
    | dir_there h2 => exact Or.inr h2
  · intro h
    rcases h with ⟨q, h2, rfl⟩ | h2
    · exact ReachMatch.dir_down h2
    · exact ReachMatch.dir_there h2

/-- Membership in the walk of a listing headed by a file entry. -/
theorem mem_walk_file (sfx pfx p n : String) (rest : Entries) :
    p ∈ walk sfx pfx (Entries.file n rest) ↔
      (endswith n sfx = true ∧ p = pfx ++ n) ∨ p ∈ walk sfx pfx rest := by
  by_cases he : endswith n sfx = true
  · simp [walk, filesPass, walkSubs, he, List.mem_append, List.mem_cons]
  · simp [walk, filesPass, walkSubs, he, List.mem_append]

/-- Membership in the walk of a listing headed by a directory entry: the walk
emits the current level's files before descending, but as sets the contents
are the subtree's walk and the rest of the level's walk. -/
theorem mem_walk_dir (sfx pfx p n : String) (sub rest : Entries) :
    p ∈ walk sfx pfx (Entries.dir n sub rest) ↔
      p ∈ walk sfx (pfx ++ n ++ "/") sub ∨ p ∈ walk sfx pfx rest := by
  simp only [walk, filesPass, walkSubs, List.mem_append]
  tauto

/-- The walk with accumulated prefix pfx contains exactly the strings pfx ++ q
for q a reachable matching file of the listing: the code's traversal computes
the spec's reachable relative paths. -/
theorem mem_walk (sfx p : String) :
    ∀ (es : Entries) (pfx : String),
      p ∈ walk sfx pfx es ↔ ∃ q, ReachMatch sfx es q ∧ p = pfx ++ q := by
  intro es
  induction es with
  | nil =>
    intro pfx
    simp [walk, filesPass, walkSubs, reach_nil_iff]
  | file n rest ih =>
    intro pfx
    rw [mem_walk_file]
    constructor
    · rintro (⟨he, rfl⟩ | hm)
      · exact ⟨n, ReachMatch.file_here he, rfl⟩
      · obtain ⟨q, hq, rfl⟩ := (ih pfx).mp hm
        exact ⟨q, ReachMatch.file_there hq, rfl⟩
    · rintro ⟨q, hq, rfl⟩
      rcases (reach_file_iff sfx n q rest).mp hq with ⟨rfl, he⟩ | h2
      · exact Or.inl ⟨he, rfl⟩
      · exact Or.inr ((ih pfx).mpr ⟨q, h2, rfl⟩)
  | dir n sub rest ihs ihr =>
    intro pfx
    rw [mem_walk_dir]
    constructor
    · rintro (hm | hm)
      · obtain ⟨q, hq, rfl⟩ := (ihs (pfx ++ n ++ "/")).mp hm
        refine ⟨n ++ "/" ++ q, ReachMatch.dir_down hq, ?_⟩
        simp [str_append_assoc]
      · obtain ⟨q, hq, rfl⟩ := (ihr pfx).mp hm
        exact ⟨q, ReachMatch.dir_there hq, rfl⟩
    · rintro ⟨q, hq, rfl⟩
      rcases (reach_dir_iff sfx n q sub rest).mp hq with ⟨q2, h2, rfl⟩ | h2
      · refine Or.inl ((ihs (pfx ++ n ++ "/")).mpr ⟨q2, h2, ?_⟩)
        simp [str_append_assoc]
      · exact Or.inr ((ihr pfx).mpr ⟨q, h2, rfl⟩)

/-- The set main builds from one root contains exactly the reachable matching
relative paths of that root; a missing root contributes nothing. -/
theorem mem_file_set (sfx : String) (d : Option Entries) (p : String) :
    p ∈ file_set sfx d ↔ reachable_match sfx d p := by
  cases d with
  | none => simp [file_set, list_files, reachable_match]
  | some es =>
    simp only [file_set, list_files, List.mem_toFinset, reachable_match]
    rw [mem_walk sfx p es ("")]
    constructor
    · rintro ⟨q, hq, rfl⟩
      rwa [str_empty_append]
    · intro h
      exact ⟨p, h, (str_empty_append p).symm⟩

/-- One level of the walk is the unfiltered level with the suffix test applied
to each filename: the if of line 8 is a filter over the visited files. -/
theorem filesPass_eq_filter (sfx : String) :
    ∀ (es : Entries) (pfx : String),
      filesPass sfx pfx es =
        ((filesAll pfx es).filter (fun pm => endswith pm.2 sfx)).map Prod.fst := by
  intro es
  induction es with
  | nil => intro pfx; rfl
  | file n rest ih =>
    intro pfx
    by_cases he : endswith n sfx = true
    · simp [filesPass, filesAll, he, ih pfx]
    · simp [filesPass, filesAll, he, ih pfx]
  | dir n sub rest ihs ihr =>
    intro pfx
    simp [filesPass, filesAll, ihr pfx]

/-- The subdirectory recursion of the walk is the unfiltered recursion with
the suffix test applied to each filename. -/
theorem walkSubs_eq_filter (sfx : String) :
    ∀ (es : Entries) (pfx : String),
      walkSubs sfx pfx es =
        ((walkSubsAll pfx es).filter (fun pm => endswith pm.2 sfx)).map Prod.fst := by
  intro es
  induction es with
  | nil => intro pfx; rfl
  | file n rest ih =>
    intro pfx
    simp [walkSubs, walkSubsAll, ih pfx]
  | dir n sub rest ihs ihr =>
    intro pfx
    simp [walkSubs, walkSubsAll, List.filter_append, List.map_append,
      filesPass_eq_filter sfx sub (pfx ++ n ++ "/"), ihs (pfx ++ n ++ "/"),
      ihr pfx]

/-- The report content on an empty iteration order is the empty file. -/
theorem report_output_nil : report_output [] = [] := rfl

/-- Unfolding one write of the loop: the contract's characters, then one
newline, then the rest. -/
theorem report_output_cons (c : String) (tl : List String) :
    report_output (c :: tl) = c.data ++ ('\n') :: report_output tl := by
  simp [report_output]

/-- Splitting after a newline-free segment followed by a newline isolates the
segment as one line. -/
theorem splitNl_append (xs rest : List Char) (h : ('\n') ∉ xs) :
    splitNl (xs ++ ('\n') :: rest) = xs :: splitNl rest := by
  induction xs with
  | nil => simp [splitNl]
  | cons c xs ih =>
    have hc : ¬ c = ('\n') := by
      intro hc
      exact h (by simp [hc])
    have hx : ('\n') ∉ xs := fun hm => h (List.mem_cons_of_mem _ hm)
    simp only [List.cons_append, splitNl, List.append_eq]
    rw [if_neg hc, ih hx]

/-- The lines of the report are exactly the iterated entries in order, with
the trailing empty segment left by the final newline. -/
theorem splitNl_report (ms : List String) (h : ∀ s ∈ ms, ('\n') ∉ s.data) :
    splitNl (report_output ms) = ms.map String.data ++ [[]] := by
  induction ms with
  | nil => rfl
  | cons c tl ih =>
    rw [report_output_cons, splitNl_append c.data (report_output tl)
      (h c (List.mem_cons_self c tl))]
    rw [ih (fun s hs => h s (List.mem_cons_of_mem _ hs))]
    simp

/-- The report holds one newline per iterated entry. -/
theorem count_nl_report (ms : List String) (h : ∀ s ∈ ms, ('\n') ∉ s.data) :
    (report_output ms).count ('\n') = ms.length := by
  induction ms with
  | nil => rfl
  | cons c tl ih =>
    have h1 : ('\n') ∉ c.data := h c (List.mem_cons_self c tl)
    have h2 := ih (fun s hs => h s (List.mem_cons_of_mem _ hs))
    simp [report_output_cons, List.count_append, List.count_cons, h2,
      List.count_eq_zero.mpr h1]

/-- Listing equivalence is symmetric. -/
theorem equiv_symm {a b : Entries} (h : EquivT a b) : EquivT b a := by
  induction h with
  | nil => exact EquivT.nil
  | file hrec ih => exact EquivT.file ih
  | dir hs hr ihs ihr => exact EquivT.dir ihs ihr
  | swap_ff => exact EquivT.swap_ff
  | swap_fd => exact EquivT.swap_df
  | swap_df => exact EquivT.swap_fd
  | swap_dd => exact EquivT.swap_dd
  | trans h1 h2 ih1 ih2 => exact EquivT.trans ih2 ih1

/-- Reachability of a matching file does not depend on the order in which the
operating system happens to enumerate each directory. -/
theorem reach_of_equiv (sfx : String) {a b : Entries} (h : EquivT a b) :
    ∀ q, ReachMatch sfx a q → ReachMatch sfx b q := by
  induction h with
  | nil => exact fun q hq => hq
  | file hrec ih =>
    intro q hq
    cases hq with
    | file_here he => exact ReachMatch.file_here he
    | file_there h2 => exact ReachMatch.file_there (ih _ h2)
  | dir hs hr ihs ihr =>
    intro q hq
    cases hq with
    | dir_down h2 => exact ReachMatch.dir_down (ihs _ h2)
    | dir_there h2 => exact ReachMatch.dir_there (ihr _ h2)
  | swap_ff =>
    intro q hq
    cases hq with
    | file_here he => exact ReachMatch.file_there (ReachMatch.file_here he)
    | file_there h2 =>
      cases h2 with
      | file_here he => exact ReachMatch.file_here he
      | file_there h3 => exact ReachMatch.file_there (ReachMatch.file_there h3)
  | swap_fd =>
    intro q hq
    cases hq with
    | file_here he => exact ReachMatch.dir_there (ReachMatch.file_here he)
    | file_there h2 =>
      cases h2 with
      | dir_down h3 => exact ReachMatch.dir_down h3
      | dir_there h3 => exact ReachMatch.dir_there (ReachMatch.file_there h3)
  | swap_df =>
    intro q hq
    cases hq with
    | dir_down h2 => exact ReachMatch.file_there (ReachMatch.dir_down h2)
    | dir_there h2 =>
      cases h2 with
      | file_here he => exact ReachMatch.file_here he
      | file_there h3 => exact ReachMatch.file_there (ReachMatch.dir_there h3)
  | swap_dd =>
    intro q hq
    cases hq with
    | dir_down h2 => exact ReachMatch.dir_there (ReachMatch.dir_down h2)
    | dir_there h2 =>
      cases h2 with
      | dir_down h3 => exact ReachMatch.dir_down h3
      | dir_there h3 => exact ReachMatch.dir_there (ReachMatch.dir_there h3)
  | trans h1 h2 ih1 ih2 => exact fun q hq => ih2 q (ih1 q hq)

/-- Two observations of the same root build the same set, whatever enumeration
order each observation saw. -/
theorem file_set_equiv (sfx : String) {d1 d2 : Option Entries}
    (h : equiv_fs d1 d2) : file_set sfx d1 = file_set sfx d2 := by
  cases d1 with
  | none =>
    cases d2 with
    | none => rfl
    | some b => exact absurd h (fun x => x)
  | some a =>
    cases d2 with
    | none => exact absurd h (fun x => x)
    | some b =>
      have hb : EquivT a b := h
      apply Finset.ext
      intro p
      rw [mem_file_set, mem_file_set]
      exact Iff.intro (fun hp => reach_of_equiv sfx hb p hp)
        (fun hp => reach_of_equiv sfx (equiv_symm hb) p hp)

/-- C1: the set main computes (enumerate left, enumerate right, subtract)
contains exactly the relative paths identifying a regular file reachable under
the left root whose filename ends with '.sol', such that no file with the same
relative path is reachable under the right root. -/
theorem c1_missing_contracts_iff (L R : Option Entries) (p : String) :
    p ∈ missing_contracts L R ↔ reachable_sol L p ∧ ¬ reachable_sol R p := by
  have h : missing_contracts L R = missing_set (".sol") L R := rfl
  rw [h, missing_set, Finset.mem_sdiff, mem_file_set, mem_file_set]
  exact Iff.rfl

/-- C2: a visited regular file's relative path is included exactly when its
filename ends with the suffix, by an exact case-sensitive suffix test; in
particular foo.solx never matches suffix .sol, and a file named exactly .sol
matches and appears. -/
theorem c2_suffix_filter :
    (∀ (sfx pfx : String) (es : Entries),
        walk sfx pfx es =
          ((walkAll pfx es).filter (fun pm => endswith pm.2 sfx)).map Prod.fst) ∧
    endswith ("foo.solx") (".sol") = false ∧
    endswith ("X.SOL") (".sol") = false ∧
    endswith (".sol") (".sol") = true ∧
    list_sol_files (some (Entries.file ("foo.solx") Entries.nil)) = [] ∧
    list_sol_files (some (Entries.file (".sol") Entries.nil)) = [(".sol")] := by
  refine ⟨?_, by decide, by decide, by decide, by decide, by decide⟩
  intro sfx pfx es
  simp [walk, walkAll, List.filter_append, List.map_append,
    filesPass_eq_filter sfx es pfx, walkSubs_eq_filter sfx es pfx]

/-- C3 counterexample: with the left root missing or unreadable, the
enumeration does not fail: it returns ok with the empty list, the pipeline
completes with exit status 0, and the difference is just empty, instead of an
I/O error propagating and aborting the run. -/
theorem c3_missing_root_no_error :
    list_sol_files_exc none = Except.ok [] ∧
    diff_run none (some (Entries.file ("x.sol") Entries.nil))
      = Except.ok (∅ : Finset String) ∧
    exit_code none (some (Entries.file ("x.sol") Entries.nil)) = 0 := by
  refine ⟨rfl, ?_, rfl⟩
  show Except.ok ((list_sol_files none).toFinset
      \ (list_sol_files (some (Entries.file ("x.sol") Entries.nil))).toFinset)
    = Except.ok (∅ : Finset String)
  exact congrArg Except.ok (by decide)

/-- C3 amended: for a root that does not exist or is not accessible,
enumeration raises nothing (os.walk ignores the error under its default
onerror=None), returns the empty list, and the run completes normally with an
empty difference when that root is on the left. -/
theorem c3_missing_root_returns_empty (R : Option Entries) :
    list_sol_files none = [] ∧
    diff_run none R = Except.ok (∅ : Finset String) ∧
    exit_code none R = 0 := by
  have hd : diff_run none R = Except.ok (∅ : Finset String) := by
    show Except.ok ((list_sol_files none).toFinset \ (list_sol_files R).toFinset)
      = Except.ok (∅ : Finset String)
    have h0 : list_sol_files none = ([] : List String) := rfl
    rw [h0, List.toFinset_nil, Finset.empty_sdiff]
  refine ⟨rfl, hd, ?_⟩
  simp only [exit_code, hd]

/-- C4: the report is exactly the members of the missing set in iteration
order, one per line, each terminated by a newline, with no header and nothing
after the last newline, and the printed total equals the cardinality of the
missing set. -/
theorem c4_report_exact (L R : Option Entries) (ms : List String)
    (h1 : ms.Nodup) (h2 : ms.toFinset = missing_contracts L R)
    (h3 : ∀ s ∈ ms, ('\n') ∉ s.data) :
    splitNl (report_output ms) = ms.map String.data ++ [[]] ∧
    ms.length = console_count L R := by
  refine ⟨splitNl_report ms h3, ?_⟩
  rw [console_count, ← h2]
  exact (List.toFinset_card_of_nodup h1).symm

/-- C4 witness: a run whose missing set is the single path b.sol. -/
theorem c4_report_exact_witness :
    ((["b.sol"] : List String).Nodup ∧
      (["b.sol"] : List String).toFinset
        = missing_contracts (some (Entries.file ("b.sol") Entries.nil)) none ∧
      (∀ s ∈ (["b.sol"] : List String), ('\n') ∉ s.data)) ∧
    (splitNl (report_output ["b.sol"])
        = (["b.sol"] : List String).map String.data ++ [[]] ∧
      (["b.sol"] : List String).length
        = console_count (some (Entries.file ("b.sol") Entries.nil)) none) :=
  ⟨⟨by decide, by decide, by decide⟩,
    c4_report_exact (some (Entries.file ("b.sol") Entries.nil)) none ["b.sol"]
      (by decide) (by decide) (by decide)⟩

/-- C5: diffing any root against itself is empty, for every suffix, both for
the suffix-abstracted difference and for the program's '.sol' instance. -/
theorem c5_diff_self (sfx : String) (L : Option Entries) :
    missing_set sfx L L = ∅ ∧ missing_contracts L L = ∅ :=
  ⟨Finset.sdiff_self (file_set sfx L),
    Finset.sdiff_self ((list_sol_files L).toFinset)⟩

/-- C6: when no file matching the suffix is reachable under the left root, the
computed difference is empty whatever the right root holds. -/
theorem c6_diff_empty_of_no_match (sfx : String) (L R : Option Entries)
    (h : ∀ p, ¬ reachable_match sfx L p) :
    missing_set sfx L R = ∅ := by
  have hL : file_set sfx L = ∅ := by
    apply Finset.eq_empty_of_forall_not_mem
    intro p hp
    exact h p ((mem_file_set sfx L p).mp hp)
  rw [missing_set, hL, Finset.empty_sdiff]

/-- C6 witness: an empty left listing against a right root holding x.sol. -/
theorem c6_diff_empty_of_no_match_witness :
    (∀ p, ¬ reachable_match (".sol") (some Entries.nil) p) ∧
    missing_set (".sol") (some Entries.nil)
      (some (Entries.file ("x.sol") Entries.nil)) = ∅ := by
  have h : ∀ p, ¬ reachable_match (".sol") (some Entries.nil) p :=
    fun p hp => (reach_nil_iff (".sol") p).mp hp
  exact ⟨h, c6_diff_empty_of_no_match (".sol") (some Entries.nil)
    (some (Entries.file ("x.sol") Entries.nil)) h⟩

/-- C7: the diff computation is deterministic over an unmodified filesystem
state: two observations of the same trees, each under whatever per-directory
enumeration order the operating system yields, produce identical missing
sets. -/
theorem c7_diff_deterministic (sfx : String) (L1 L2 R1 R2 : Option Entries)
    (hL : equiv_fs L1 L2) (hR : equiv_fs R1 R2) :
    missing_set sfx L1 R1 = missing_set sfx L2 R2 := by
  rw [missing_set, missing_set, file_set_equiv sfx hL, file_set_equiv sfx hR]

/-- C7 witness: the same two files observed in the two possible orders. -/
theorem c7_diff_deterministic_witness :
    (equiv_fs
        (some (Entries.file ("a.sol") (Entries.file ("b.sol") Entries.nil)))
        (some (Entries.file ("b.sol") (Entries.file ("a.sol") Entries.nil))) ∧
      equiv_fs (none : Option Entries) none) ∧
    missing_set (".sol")
        (some (Entries.file ("a.sol") (Entries.file ("b.sol") Entries.nil)))
        none
      = missing_set (".sol")
        (some (Entries.file ("b.sol") (Entries.file ("a.sol") Entries.nil)))
        none := by
  have hL : equiv_fs
      (some (Entries.file ("a.sol") (Entries.file ("b.sol") Entries.nil)))
      (some (Entries.file ("b.sol") (Entries.file ("a.sol") Entries.nil))) :=
    EquivT.swap_ff
  have hR : equiv_fs (none : Option Entries) none := trivial
  exact ⟨⟨hL, hR⟩, c7_diff_deterministic (".sol") _ _ _ _ hL hR⟩

/-- C8: the output path is created when absent and truncated when present, so
after a successful run its content is exactly the report, independent of any
prior content. -/
theorem c8_report_overwrites (ms : List String)
    (prev prev2 : Option (List Char)) :
    report_write prev ms = some (report_output ms) ∧
    report_write prev ms = report_write prev2 ms :=
  ⟨rfl, rfl⟩

/-- C9: the number of newline-terminated lines written to the output file
equals the printed Total missing contracts count. -/
theorem c9_lines_eq_count (L R : Option Entries) (ms : List String)
    (h1 : ms.Nodup) (h2 : ms.toFinset = missing_contracts L R)
    (h3 : ∀ s ∈ ms, ('\n') ∉ s.data) :
    (report_output ms).count ('\n') = console_count L R := by
  rw [count_nl_report ms h3, console_count, ← h2]
  exact (List.toFinset_card_of_nodup h1).symm

/-- C9 witness: a run whose missing set is the single path x.sol. -/
theorem c9_lines_eq_count_witness :
    ((["x.sol"] : List String).Nodup ∧
      (["x.sol"] : List String).toFinset
        = missing_contracts (some (Entries.file ("x.sol") Entries.nil)) none ∧
      (∀ s ∈ (["x.sol"] : List String), ('\n') ∉ s.data)) ∧
    (report_output ["x.sol"]).count ('\n')
      = console_count (some (Entries.file ("x.sol") Entries.nil)) none :=
  ⟨⟨by decide, by decide, by decide⟩,
    c9_lines_eq_count (some (Entries.file ("x.sol") Entries.nil)) none ["x.sol"]
      (by decide) (by decide) (by decide)⟩

/-- C10: a root argument naming no existing readable directory makes
list_sol_files return the empty list without raising; such a run completes
with exit status 0, and that side of the diff contributes no paths. -/
theorem c10_missing_root_benign (L R : Option Entries) :
    list_sol_files none = [] ∧
    list_sol_files_exc none = Except.ok [] ∧
    exit_code none R = 0 ∧
    exit_code L none = 0 ∧
    missing_contracts none R = ∅ ∧
    missing_contracts L none = (list_sol_files L).toFinset := by
  refine ⟨rfl, rfl, rfl, rfl, ?_, ?_⟩
  · have h0 : list_sol_files none = ([] : List String) := rfl
    simp [missing_contracts, h0]
  · simp [missing_contracts, show list_sol_files none = ([] : List String) from rfl]
